import Mathlib

/-!
A verification development for the cyberdyne blackboard core: the reactive
attribute graph implemented by the descriptors `Field` and `DerivedField` in
`cyberdyne/blackboards/_fields.py` (and its twin `cyberdyne/blackboard/_fields.py`).

Modelling choices:
* A container type is a list of field declarations `decls : List Decl`,
  indexed by creation order; the index plays the role of the attribute name.
  In Python a `DerivedField` can only list already-constructed field objects
  in `depends_on`, so dependencies of declaration `i` have index `< i`
  (`CreationWF` below records this structural fact of any real class).
* The order in which `__set_name__` fires (class-body order) is a separate
  list `order` of declaration indices, since a field object may be bound in a
  class body at any point after its construction.
* `trio_util.AsyncValue` is modelled by `AsyncValue`: an allocation id
  (Python object identity) together with the contained value.  Values are
  modelled as `Int`; compute functions take the list of upstream values.
* Per-instance state (`obj.__dict__` plus an allocation counter) is `St`.
  Recursion in the Python code (`_add_dependent` forwarding, lazy
  materialization in `_ensure_initial_value`/`_compute_value`) is modelled
  with an explicit fuel parameter; fuel `decls.length` is always enough
  because the dependency indices strictly decrease.
* Assigning a derived attribute raises; this is modelled by `Except` with
  the single error `FieldError.immutableFieldError`, standing for the
  `AttributeError("can't set attribute for derived fields")` the source raises.
-/

/-- Models a `trio_util.AsyncValue`: an observable value wrapper, given here by
its object identity (`id`, an allocation number) and its contained value. -/
structure AsyncValue where
  id : Nat
  value : Int
deriving DecidableEq, Repr

/-- One field declaration of a container type: a source `Field` with an initial
value, or a `DerivedField` with a compute function and the list of upstream
declarations (by creation index) it reads. -/
inductive Decl where
  | source (initial : Int) : Decl
  | derived (fn : List Int → Int) (dependsOn : List Nat) : Decl

/-- Direct dependencies of declaration `i` (empty for sources and undeclared
names), mirroring the `_depends_on` attribute of a `DerivedField`. -/
def depsOf (decls : List Decl) (i : Nat) : List Nat :=
  match decls.get? i with
  | some (Decl.derived _ ds) => ds
  | _ => []

/-- Name `i` is declared as a derived field. -/
def isDeriv (decls : List Decl) (i : Nat) : Prop :=
  ∃ fn ds, decls.get? i = some (Decl.derived fn ds)

/-- Name `i` is declared as a source field. -/
def isSrc (decls : List Decl) (i : Nat) : Prop :=
  ∃ v, decls.get? i = some (Decl.source v)

/-- Structural fact of any Python class using these descriptors: a
`DerivedField` can only depend on field objects that already exist, so in
creation order every dependency index is strictly smaller. -/
def CreationWF (decls : List Decl) : Prop :=
  ∀ i < decls.length, ∀ j ∈ depsOf decls i, j < i

/-- Declaration `a` transitively reads declaration `b`: a nonempty chain of
`depends_on` edges from `a` to `b`. -/
inductive Reads (decls : List Decl) : Nat → Nat → Prop
  | direct : ∀ a b, b ∈ depsOf decls a → Reads decls a b
  | step : ∀ a b c, b ∈ depsOf decls a → Reads decls b c → Reads decls a c

/-- The class-body order `order` registers every declaration only after all of
its direct dependencies (the documented precondition of the library); `seen`
accumulates the already-registered names. -/
def declOrderOK (decls : List Decl) : List Nat → List Nat → Bool
  | _, [] => true
  | seen, i :: rest =>
      (depsOf decls i).all (fun j => decide (j ∈ seen)) &&
        declOrderOK decls (i :: seen) rest

/-- The dependent registries of all declarations: the `_dependents` list of
each source descriptor, as a map from declaration name.  Derived declarations
have no such list in the source; here their entry simply stays empty. -/
def Reg : Type := Nat → List Nat

/-- All registries empty, as after constructing the `Field` objects. -/
def emptyReg : Reg := fun _ => []

/-- Append dependent `d` to the registry of declaration `t`
(`Field._add_dependent`, the list append). -/
def regAppend (t d : Nat) (reg : Reg) : Reg :=
  fun s => if s = t then reg s ++ [d] else reg s

/-- Per-instance runtime state: the instance `__dict__` (a map from attribute
name to its wrapper, absent until first touch) plus the allocation counter
providing fresh wrapper identities. -/
structure St where
  store : Nat → Option AsyncValue
  nextId : Nat

/-- A freshly constructed instance: empty `__dict__`. -/
def St.fresh : St := St.mk (fun _ => none) 0

/-- Construct a new `AsyncValue` wrapper holding `v` and store it at name `i`
(only ever called when the entry is absent). -/
def alloc (i : Nat) (v : Int) (st : St) : St :=
  St.mk (fun j => if j = i then some (AsyncValue.mk st.nextId v) else st.store j)
    (st.nextId + 1)

/-- Mutate the wrapper stored at `i` in place: `async_value.value = v`.  The
wrapper identity is preserved; an absent entry stays absent. -/
def setValue (i : Nat) (v : Int) (st : St) : St :=
  St.mk
    (fun j => if j = i then (st.store j).map (fun w => AsyncValue.mk w.id v)
              else st.store j)
    st.nextId

/-- Contained value of the wrapper at `j` (0 as an arbitrary default for an
absent entry; every use is behind materialization). -/
def valueAtD (j : Nat) (st : St) : Int :=
  match st.store j with
  | some w => w.value
  | none => 0

/-- The error raised on assignment to a derived attribute: the spec's
ImmutableFieldError, raised in the source as
`AttributeError("can't set attribute for derived fields")`. -/
inductive FieldError where
  | immutableFieldError : FieldError
deriving DecidableEq, Repr

/-- An externally observable operation on one instance: read an attribute or
assign a source attribute. -/
inductive Op where
  | read (i : Nat) : Op
  | write (i : Nat) (v : Int) : Op

namespace Blackboards

/-- Models `Field._add_dependent` / `DerivedField._add_dependent` of
`cyberdyne/blackboards/_fields.py`: append `d` to a source target's registry;
a derived target forwards the registration to each of its own dependencies.
The fuel bounds the forwarding depth (dependency indices strictly decrease,
so `decls.length` is always enough). -/
def addDependent (decls : List Decl) (d : Nat) : Nat → Nat → Reg → Reg
  | 0, t, reg =>
      match decls.get? t with
      | some (Decl.source _) => regAppend t d reg
      | _ => reg
  | fuel + 1, t, reg =>
      match decls.get? t with
      | some (Decl.source _) => regAppend t d reg
      | some (Decl.derived _ ds) =>
          ds.foldl (fun r j => addDependent decls d fuel j r) reg
      | none => reg

/-- Registration performed by `__set_name__` when declaration `i` is bound in
the class body: a derived declaration registers itself with each of its
dependencies; a source declaration registers nothing. -/
def registerDecl (decls : List Decl) (i : Nat) (reg : Reg) : Reg :=
  match decls.get? i with
  | some (Decl.derived _ ds) =>
      ds.foldl (fun r j => addDependent decls i decls.length j r) reg
  | _ => reg

/-- The registries after the class body has been processed: `__set_name__`
fires once per bound name, in class-body order. -/
def buildReg (decls : List Decl) (order : List Nat) : Reg :=
  order.foldl (fun r i => registerDecl decls i r) emptyReg

/-- Models `_ensure_initial_value` (of both descriptor classes) together with
the `getattr` calls of `DerivedField._compute_value`: if the entry for `i` is
absent, create it — for a source from its declared initial value, for a
derived declaration by first materializing every upstream (the public read
path) and applying the compute function to their current values. -/
def ensure (decls : List Decl) : Nat → Nat → St → St
  | 0, i, st =>
      match st.store i with
      | some _ => st
      | none =>
          match decls.get? i with
          | some (Decl.source v) => alloc i v st
          | _ => st
  | fuel + 1, i, st =>
      match st.store i with
      | some _ => st
      | none =>
          match decls.get? i with
          | some (Decl.source v) => alloc i v st
          | some (Decl.derived fn ds) =>
              let st1 := ds.foldl (fun s j => ensure decls fuel j s) st
              alloc i (fn (ds.map (fun j => valueAtD j st1))) st1
          | none => st

/-- Models `DerivedField._compute_value`: materialize every upstream via the
public read path, then apply the compute function to their current values. -/
def computeValue (decls : List Decl) (i : Nat) (st : St) : Int × St :=
  match decls.get? i with
  | some (Decl.derived fn ds) =>
      let st1 := ds.foldl (fun s j => ensure decls decls.length j s) st
      (fn (ds.map (fun j => valueAtD j st1)), st1)
  | _ => (0, st)

/-- Models `DerivedField._update`: ensure the entry exists, recompute, and set
the wrapper's value in place. -/
def update (decls : List Decl) (i : Nat) (st : St) : St :=
  let st1 := ensure decls decls.length i st
  let p := computeValue decls i st1
  setValue i p.1 p.2

/-- Models `Field.__get__` / `DerivedField.__get__`: ensure the entry exists
and return the stored wrapper (the default is unreachable for declared
names). -/
def getAttr (decls : List Decl) (i : Nat) (st : St) : AsyncValue × St :=
  let st1 := ensure decls decls.length i st
  (((st1.store i).getD (AsyncValue.mk 0 0)), st1)

/-- Models `Field.__set__`: ensure the entry exists, set the wrapper's
contained value, then recompute each dependent in registry order. -/
def setField (decls : List Decl) (reg : Reg) (i : Nat) (v : Int) (st : St) : St :=
  let st1 := ensure decls decls.length i st
  let st2 := setValue i v st1
  (reg i).foldl (fun s d => update decls d s) st2

/-- Attribute assignment dispatched through the descriptor found at `i`:
a source runs `Field.__set__`, a derived declaration raises (models Python's
descriptor protocol for `obj.attr = v`).  An undeclared name is out of scope
and left as a no-op. -/
def setAttr (decls : List Decl) (reg : Reg) (i : Nat) (v : Int) (st : St) :
    Except FieldError St :=
  match decls.get? i with
  | some (Decl.source _) => Except.ok (setField decls reg i v st)
  | some (Decl.derived _ _) => Except.error FieldError.immutableFieldError
  | none => Except.ok st

/-- One observable operation on an instance; a raising write leaves the
instance state unchanged (the exception propagates). -/
def runOp (decls : List Decl) (reg : Reg) (st : St) : Op → St
  | Op.read i => (getAttr decls i st).2
  | Op.write i v =>
      match setAttr decls reg i v st with
      | Except.ok st' => st'
      | Except.error _ => st

/-- A sequence of observable operations on one instance. -/
def runOps (decls : List Decl) (reg : Reg) : List Op → St → St
  | [], st => st
  | op :: ops, st => runOps decls reg ops (runOp decls reg st op)

end Blackboards

namespace Blackboard

/-- Models `Field._add_dependant` / `DerivedField._add_dependant` of the twin
module `cyberdyne/blackboard/_fields.py` (same logic as `Blackboards`, the
internal list is named `_dependants` there). -/
def addDependant (decls : List Decl) (d : Nat) : Nat → Nat → Reg → Reg
  | 0, t, reg =>
      match decls.get? t with
      | some (Decl.source _) => regAppend t d reg
      | _ => reg
  | fuel + 1, t, reg =>
      match decls.get? t with
      | some (Decl.source _) => regAppend t d reg
      | some (Decl.derived _ ds) =>
          ds.foldl (fun r j => addDependant decls d fuel j r) reg
      | none => reg

/-- Registration of `__set_name__` in the twin module. -/
def registerDecl (decls : List Decl) (i : Nat) (reg : Reg) : Reg :=
  match decls.get? i with
  | some (Decl.derived _ ds) =>
      ds.foldl (fun r j => addDependant decls i decls.length j r) reg
  | _ => reg

/-- Registries after class-body processing in the twin module. -/
def buildReg (decls : List Decl) (order : List Nat) : Reg :=
  order.foldl (fun r i => registerDecl decls i r) emptyReg

/-- Lazy materialization in the twin module. -/
def ensure (decls : List Decl) : Nat → Nat → St → St
  | 0, i, st =>
      match st.store i with
      | some _ => st
      | none =>
          match decls.get? i with
          | some (Decl.source v) => alloc i v st
          | _ => st
  | fuel + 1, i, st =>
      match st.store i with
      | some _ => st
      | none =>
          match decls.get? i with
          | some (Decl.source v) => alloc i v st
          | some (Decl.derived fn ds) =>
              let st1 := ds.foldl (fun s j => ensure decls fuel j s) st
              alloc i (fn (ds.map (fun j => valueAtD j st1))) st1
          | none => st

/-- Twin module's `DerivedField._compute_value`. -/
def computeValue (decls : List Decl) (i : Nat) (st : St) : Int × St :=
  match decls.get? i with
  | some (Decl.derived fn ds) =>
      let st1 := ds.foldl (fun s j => ensure decls decls.length j s) st
      (fn (ds.map (fun j => valueAtD j st1)), st1)
  | _ => (0, st)

/-- Twin module's `DerivedField._update`. -/
def update (decls : List Decl) (i : Nat) (st : St) : St :=
  let st1 := ensure decls decls.length i st
  let p := computeValue decls i st1
  setValue i p.1 p.2

/-- Twin module's `__get__`. -/
def getAttr (decls : List Decl) (i : Nat) (st : St) : AsyncValue × St :=
  let st1 := ensure decls decls.length i st
  (((st1.store i).getD (AsyncValue.mk 0 0)), st1)

/-- Twin module's `Field.__set__`. -/
def setField (decls : List Decl) (reg : Reg) (i : Nat) (v : Int) (st : St) : St :=
  let st1 := ensure decls decls.length i st
  let st2 := setValue i v st1
  (reg i).foldl (fun s d => update decls d s) st2

/-- Twin module's attribute assignment through the descriptor protocol. -/
def setAttr (decls : List Decl) (reg : Reg) (i : Nat) (v : Int) (st : St) :
    Except FieldError St :=
  match decls.get? i with
  | some (Decl.source _) => Except.ok (setField decls reg i v st)
  | some (Decl.derived _ _) => Except.error FieldError.immutableFieldError
  | none => Except.ok st

/-- One observable operation in the twin module. -/
def runOp (decls : List Decl) (reg : Reg) (st : St) : Op → St
  | Op.read i => (getAttr decls i st).2
  | Op.write i v =>
      match setAttr decls reg i v st with
      | Except.ok st' => st'
      | Except.error _ => st

/-- A sequence of observable operations in the twin module. -/
def runOps (decls : List Decl) (reg : Reg) : List Op → St → St
  | [], st => st
  | op :: ops, st => runOps decls reg ops (runOp decls reg st op)

end Blackboard

/-- The `depends_on` constructor argument of `DerivedField.__init__`: either a
lone field object (a `Field`/`DerivedField` instance is not `Iterable`) or an
iterable of field objects. -/
inductive DependsOnArg where
  | one (f : Nat) : DependsOnArg
  | many (fs : List Nat) : DependsOnArg

/-- The normalization performed by `DerivedField.__init__`:
`depends_on if isinstance(depends_on, Iterable) else (depends_on,)`. -/
def normalizeDependsOn : DependsOnArg → List Nat
  | DependsOnArg.one f => [f]
  | DependsOnArg.many fs => fs

/-- Constructing a `DerivedField` declaration from a compute function and the
raw `depends_on` argument. -/
def mkDerivedField (fn : List Int → Int) (d : DependsOnArg) : Decl :=
  Decl.derived fn (normalizeDependsOn d)

/-- The concrete scenario class from the spec and the test-suite:
`a = Field(1)`, `b = Field(2)`, `c = DerivedField(lambda a, b: a + b, (a, b))`,
`d = DerivedField(lambda c: 2 * c, c)`. -/
def exDecls : List Decl :=
  [Decl.source 1,
   Decl.source 2,
   Decl.derived (fun l => l.getD 0 0 + l.getD 1 0) [0, 1],
   Decl.derived (fun l => 2 * l.getD 0 0) [2]]

/-- Class-body order of the example class. -/
def exOrder : List Nat := [0, 1, 2, 3]

/-- Registries of the example class. -/
def exReg : Reg := Blackboards.buildReg exDecls exOrder

example : exReg 0 = [2, 3] := by rfl
example : exReg 1 = [2, 3] := by rfl
example : exReg 2 = [] := by rfl

example :
    ((Blackboards.setField exDecls exReg 0 2 St.fresh).store 2).map AsyncValue.value
      = some 4 := by rfl

example :
    ((Blackboards.setField exDecls exReg 0 2 St.fresh).store 3).map AsyncValue.value
      = some 8 := by rfl

theorem addDep_eq (decls : List Decl) (d : Nat) :
    ∀ fuel t reg, Blackboard.addDependant decls d fuel t reg
      = Blackboards.addDependent decls d fuel t reg := by
  intro fuel
  induction fuel with
  | zero =>
      intro t reg
      rfl
  | succ fuel ih =>
      intro t reg
      show Blackboard.addDependant decls d (fuel + 1) t reg
        = Blackboards.addDependent decls d (fuel + 1) t reg
      unfold Blackboard.addDependant Blackboards.addDependent
      cases h : decls.get? t with
      | none => rfl
      | some dc =>
          cases dc with
          | source v => rfl
          | derived fn ds =>
              have hf : (fun r j => Blackboard.addDependant decls d fuel j r)
                  = fun r j => Blackboards.addDependent decls d fuel j r := by
                funext r j
                exact ih j r
              rw [hf]

theorem registerDecl_eq (decls : List Decl) (i : Nat) (reg : Reg) :
    Blackboard.registerDecl decls i reg = Blackboards.registerDecl decls i reg := by
  unfold Blackboard.registerDecl Blackboards.registerDecl
  cases h : decls.get? i with
  | none => rfl
  | some dc =>
      cases dc with
      | source v => rfl
      | derived fn ds =>
          have hf : (fun r j => Blackboard.addDependant decls i decls.length j r)
              = fun r j => Blackboards.addDependent decls i decls.length j r := by
            funext r j
            exact addDep_eq decls i decls.length j r
          rw [hf]

theorem buildReg_eq (decls : List Decl) (order : List Nat) :
    Blackboard.buildReg decls order = Blackboards.buildReg decls order := by
  unfold Blackboard.buildReg Blackboards.buildReg
  have hf : (fun r i => Blackboard.registerDecl decls i r)
      = fun r i => Blackboards.registerDecl decls i r := by
    funext r i
    exact registerDecl_eq decls i r
  rw [hf]

theorem ensure_eq (decls : List Decl) :
    ∀ fuel i st, Blackboard.ensure decls fuel i st
      = Blackboards.ensure decls fuel i st := by
  intro fuel
  induction fuel with
  | zero =>
      intro i st
      rfl
  | succ fuel ih =>
      intro i st
      show Blackboard.ensure decls (fuel + 1) i st
        = Blackboards.ensure decls (fuel + 1) i st
      unfold Blackboard.ensure Blackboards.ensure
      cases hs : st.store i with
      | some w => rfl
      | none =>
          cases h : decls.get? i with
          | none => rfl
          | some dc =>
              cases dc with
              | source v => rfl
              | derived fn ds =>
                  have hf : (fun s j => Blackboard.ensure decls fuel j s)
                      = fun s j => Blackboards.ensure decls fuel j s := by
                    funext s j
                    exact ih j s
                  rw [hf]

theorem computeValue_eq (decls : List Decl) (i : Nat) (st : St) :
    Blackboard.computeValue decls i st = Blackboards.computeValue decls i st := by
  unfold Blackboard.computeValue Blackboards.computeValue
  have hf : (fun s j => Blackboard.ensure decls decls.length j s)
      = fun s j => Blackboards.ensure decls decls.length j s := by
    funext s j
    exact ensure_eq decls decls.length j s
  rw [hf]

theorem update_eq (decls : List Decl) (i : Nat) (st : St) :
    Blackboard.update decls i st = Blackboards.update decls i st := by
  unfold Blackboard.update Blackboards.update
  simp only [ensure_eq, computeValue_eq]

theorem getAttr_eq (decls : List Decl) (i : Nat) (st : St) :
    Blackboard.getAttr decls i st = Blackboards.getAttr decls i st := by
  unfold Blackboard.getAttr Blackboards.getAttr
  simp only [ensure_eq]

theorem setField_eq (decls : List Decl) (reg : Reg) (i : Nat) (v : Int) (st : St) :
    Blackboard.setField decls reg i v st = Blackboards.setField decls reg i v st := by
  unfold Blackboard.setField Blackboards.setField
  have hf : (fun s d => Blackboard.update decls d s)
      = fun s d => Blackboards.update decls d s := by
    funext s d
    exact update_eq decls d s
  simp only [hf, ensure_eq]

theorem setAttr_eq (decls : List Decl) (reg : Reg) (i : Nat) (v : Int) (st : St) :
    Blackboard.setAttr decls reg i v st = Blackboards.setAttr decls reg i v st := by
  unfold Blackboard.setAttr Blackboards.setAttr
  cases h : decls.get? i with
  | none => rfl
  | some dc =>
      cases dc with
      | source w => rw [setField_eq]
      | derived fn ds => rfl

theorem runOp_eq (decls : List Decl) (reg : Reg) (st : St) (op : Op) :
    Blackboard.runOp decls reg st op = Blackboards.runOp decls reg st op := by
  cases op with
  | read i =>
      show (Blackboard.getAttr decls i st).2 = (Blackboards.getAttr decls i st).2
      rw [getAttr_eq]
  | write i v =>
      show (match Blackboard.setAttr decls reg i v st with
            | Except.ok st' => st'
            | Except.error _ => st)
          = match Blackboards.setAttr decls reg i v st with
            | Except.ok st' => st'
            | Except.error _ => st
      rw [setAttr_eq]

theorem runOps_eq (decls : List Decl) (reg : Reg) :
    ∀ ops st, Blackboard.runOps decls reg ops st
      = Blackboards.runOps decls reg ops st := by
  intro ops
  induction ops with
  | nil =>
      intro st
      rfl
  | cons op ops ih =>
      intro st
      show Blackboard.runOps decls reg ops (Blackboard.runOp decls reg st op)
        = Blackboards.runOps decls reg ops (Blackboards.runOp decls reg st op)
      rw [runOp_eq, ih]

/-- C9: the `Field`/`DerivedField` implementations of
`cyberdyne/blackboard/_fields.py` and `cyberdyne/blackboards/_fields.py` are
behaviorally equivalent: for every container type they build identical
registries, and every read, every attribute assignment (including its error
behavior) and every sequence of reads and writes produce identical results. -/
theorem modules_equivalent :
    (∀ decls order, Blackboard.buildReg decls order = Blackboards.buildReg decls order)
    ∧ (∀ decls i st, Blackboard.getAttr decls i st = Blackboards.getAttr decls i st)
    ∧ (∀ decls reg i v st,
        Blackboard.setAttr decls reg i v st = Blackboards.setAttr decls reg i v st)
    ∧ (∀ decls reg ops st,
        Blackboard.runOps decls reg ops st = Blackboards.runOps decls reg ops st) :=
  ⟨buildReg_eq, getAttr_eq, setAttr_eq, fun decls reg ops st => runOps_eq decls reg ops st⟩

/-- C10: constructing a `DerivedField` with a single non-iterable field as
`depends_on` is the same as constructing it with the one-element tuple of that
field: the constructor normalizes a lone dependency to a singleton sequence,
so the resulting declaration — and with it all subsequent registration,
computation and update behavior in any surrounding class — is identical. -/
theorem mkDerivedField_single_eq_singleton :
    (∀ fn x, mkDerivedField fn (DependsOnArg.one x)
        = mkDerivedField fn (DependsOnArg.many [x]))
    ∧ (∀ fn x (pre post : List Decl) (reg : Reg) (ops : List Op) (st : St),
        Blackboards.runOps
            (pre ++ mkDerivedField fn (DependsOnArg.one x) :: post) reg ops st
          = Blackboards.runOps
            (pre ++ mkDerivedField fn (DependsOnArg.many [x]) :: post) reg ops st)
    ∧ (∀ fn x (pre post : List Decl) (order : List Nat),
        Blackboards.buildReg
            (pre ++ mkDerivedField fn (DependsOnArg.one x) :: post) order
          = Blackboards.buildReg
            (pre ++ mkDerivedField fn (DependsOnArg.many [x]) :: post) order) :=
  ⟨fun _ _ => rfl, fun _ _ _ _ _ _ _ => rfl, fun _ _ _ _ _ => rfl⟩

/-- C2: in the scenario class (source `a = 1`, source `b = 2`, derived
`c = a + b`, derived `d = 2 * c`), writing `a = 2` on a fresh instance leaves
`c`'s wrapper holding 4 and `d`'s wrapper holding 8 by the time the write
returns, with no further action required. -/
theorem scenario_write_propagates :
    ((Blackboards.setField exDecls exReg 0 2 St.fresh).store 2).map AsyncValue.value
        = some 4
    ∧ ((Blackboards.setField exDecls exReg 0 2 St.fresh).store 3).map AsyncValue.value
        = some 8 :=
  ⟨rfl, rfl⟩

theorem get?_some_lt {α : Type} {l : List α} {n : Nat} {a : α}
    (h : l.get? n = some a) : n < l.length := by
  by_contra hn
  rw [List.get?_eq_none.mpr (Nat.le_of_not_lt hn)] at h
  exact Option.noConfusion h

theorem alloc_store_at (i : Nat) (v : Int) (st : St) :
    (alloc i v st).store i = some (AsyncValue.mk st.nextId v) := by
  simp [alloc]

theorem alloc_store_other (i x : Nat) (v : Int) (st : St) (hx : x ≠ i) :
    (alloc i v st).store x = st.store x := by
  simp [alloc, hx]

theorem setValue_store_other (i x : Nat) (v : Int) (st : St) (hx : x ≠ i) :
    (setValue i v st).store x = st.store x := by
  simp [setValue, hx]

theorem setValue_store_at (i : Nat) (v : Int) (st : St) (w : AsyncValue)
    (h : st.store i = some w) :
    (setValue i v st).store i = some (AsyncValue.mk w.id v) := by
  simp [setValue, h]

/-- Lazy materialization never replaces or mutates an entry that already
exists: the stored wrapper object and its value are preserved verbatim. -/
theorem ensure_pres (decls : List Decl) :
    ∀ fuel i st x w, st.store x = some w →
      (Blackboards.ensure decls fuel i st).store x = some w := by
  intro fuel
  induction fuel with
  | zero =>
      intro i st x w hx
      unfold Blackboards.ensure
      cases hs : st.store i with
      | some u => simp only [hs]; exact hx
      | none =>
          simp only [hs]
          cases hd : decls.get? i with
          | none => exact hx
          | some dc =>
              cases dc with
              | source v =>
                  have hxi : x ≠ i := by
                    intro he
                    rw [he, hs] at hx
                    exact Option.noConfusion hx
                  rw [alloc_store_other i x v st hxi]
                  exact hx
              | derived fn ds => exact hx
  | succ fuel ih =>
      intro i st x w hx
      unfold Blackboards.ensure
      cases hs : st.store i with
      | some u => simp only [hs]; exact hx
      | none =>
          simp only [hs]
          have hxi : x ≠ i := by
            intro he
            rw [he, hs] at hx
            exact Option.noConfusion hx
          cases hd : decls.get? i with
          | none => exact hx
          | some dc =>
              cases dc with
              | source v =>
                  rw [alloc_store_other i x v st hxi]
                  exact hx
              | derived fn ds =>
                  have hfold : ∀ (l : List Nat) (s : St), s.store x = some w →
                      ((l.foldl (fun s j => Blackboards.ensure decls fuel j s) s).store x
                        = some w) := by
                    intro l
                    induction l with
                    | nil => intro s hsx; exact hsx
                    | cons a l ihl =>
                        intro s hsx
                        exact ihl _ (ih a s x w hsx)
                  simp only []
                  rw [alloc_store_other _ x _ _ hxi]
                  exact hfold ds st hx

/-- Folding lazy materialization over a list of names also preserves existing
entries verbatim. -/
theorem ensure_foldl_pres (decls : List Decl) (fuel : Nat) :
    ∀ (l : List Nat) (s : St) (x : Nat) (w : AsyncValue), s.store x = some w →
      ((l.foldl (fun s j => Blackboards.ensure decls fuel j s) s).store x = some w) := by
  intro l
  induction l with
  | nil => intro s x w hsx; exact hsx
  | cons a l ihl =>
      intro s x w hsx
      exact ihl _ x w (ensure_pres decls fuel a s x w hsx)

/-- After materialization with nonzero fuel, the entry for a declared name
exists. -/
theorem ensure_isSome (decls : List Decl) :
    ∀ fuel i st, 1 ≤ fuel → i < decls.length →
      ∃ u, (Blackboards.ensure decls fuel i st).store i = some u := by
  intro fuel i st hfuel hi
  cases fuel with
  | zero => exact absurd hfuel (by omega)
  | succ fuel =>
      unfold Blackboards.ensure
      cases hs : st.store i with
      | some u => simp only [hs]; exact ⟨u, rfl⟩
      | none =>
          simp only [hs]
          cases hd : decls.get? i with
          | none =>
              have := List.get?_eq_none.mp hd
              omega
          | some dc =>
              cases dc with
              | source v => exact ⟨_, alloc_store_at i v st⟩
              | derived fn ds =>
                  simp only []
                  exact ⟨_, alloc_store_at i _ _⟩

/-- C5: every attempt to assign a value directly to a derived attribute fails
with the immutable-field error, the error is surfaced to the caller, and the
instance state is left entirely unchanged, with no side effect. -/
theorem derived_write_raises (decls : List Decl) (reg : Reg) (i : Nat) (v : Int)
    (st : St) (fn : List Int → Int) (ds : List Nat)
    (h : decls.get? i = some (Decl.derived fn ds)) :
    Blackboards.setAttr decls reg i v st
        = Except.error FieldError.immutableFieldError
    ∧ Blackboards.runOp decls reg st (Op.write i v) = st := by
  have h1 : Blackboards.setAttr decls reg i v st
      = Except.error FieldError.immutableFieldError := by
    unfold Blackboards.setAttr
    simp only [h]
  refine ⟨h1, ?_⟩
  unfold Blackboards.runOp
  simp only [h1]

/-- Witness for C5 on the scenario class: assigning `c = 7` raises and does
not touch the fresh instance. -/
theorem derived_write_raises_witness :
    exDecls.get? 2 = some (Decl.derived (fun l => l.getD 0 0 + l.getD 1 0) [0, 1])
    ∧ (Blackboards.setAttr exDecls exReg 2 7 St.fresh
          = Except.error FieldError.immutableFieldError
      ∧ Blackboards.runOp exDecls exReg St.fresh (Op.write 2 7) = St.fresh) :=
  ⟨rfl, derived_write_raises exDecls exReg 2 7 St.fresh _ _ rfl⟩

/-- A world of instances of one container type, keyed by an instance
identifier; each instance owns its `__dict__` exclusively. -/
def World : Type := Nat → St

/-- Models Python attribute assignment `obj.attr = v` dispatched on instance
`o`: the descriptor's `__set__` receives `obj` and touches only
`obj.__dict__` (a raising write leaves the instance unchanged). -/
def writeOn (decls : List Decl) (reg : Reg) (o i : Nat) (v : Int) (w : World) :
    World :=
  fun p => if p = o then Blackboards.runOp decls reg (w p) (Op.write i v) else w p

/-- C8: writing a source attribute on one instance changes nothing observable
on any other instance of the same container type: the other instance's state,
hence every wrapper object and every contained value read from it, is
unchanged. -/
theorem instance_isolation (decls : List Decl) (reg : Reg) (o o' i : Nat)
    (v : Int) (w : World) (h : o' ≠ o) :
    writeOn decls reg o i v w o' = w o'
    ∧ ∀ j, Blackboards.getAttr decls j (writeOn decls reg o i v w o')
        = Blackboards.getAttr decls j (w o') := by
  have h1 : writeOn decls reg o i v w o' = w o' := by
    simp [writeOn, h]
  exact ⟨h1, fun j => by rw [h1]⟩

/-- Witness for C8: two fresh instances of the scenario class, writing
`a = 2` on instance 0 leaves instance 1 untouched. -/
theorem instance_isolation_witness :
    (1 : Nat) ≠ 0
    ∧ (writeOn exDecls exReg 0 0 2 (fun _ => St.fresh) 1 = (fun _ => St.fresh) 1
      ∧ ∀ j, Blackboards.getAttr exDecls j (writeOn exDecls exReg 0 0 2 (fun _ => St.fresh) 1)
          = Blackboards.getAttr exDecls j ((fun _ => St.fresh) 1)) :=
  ⟨by decide, instance_isolation exDecls exReg 0 1 0 2 (fun _ => St.fresh) (by decide)⟩

/-- Registration never appends to the registry of a name that is not declared
as a source field: a derived target only forwards. -/
theorem addDep_nonsource (decls : List Decl) (d s : Nat)
    (hns : ∀ v, decls.get? s ≠ some (Decl.source v)) :
    ∀ fuel t reg, Blackboards.addDependent decls d fuel t reg s = reg s := by
  intro fuel
  induction fuel with
  | zero =>
      intro t reg
      unfold Blackboards.addDependent
      cases hd : decls.get? t with
      | none => rfl
      | some dc =>
          cases dc with
          | source v =>
              have hst : s ≠ t := by
                intro he
                exact hns v (by rw [he]; exact hd)
              simp [regAppend, hst]
          | derived fn ds => rfl
  | succ fuel ih =>
      intro t reg
      unfold Blackboards.addDependent
      cases hd : decls.get? t with
      | none => rfl
      | some dc =>
          cases dc with
          | source v =>
              have hst : s ≠ t := by
                intro he
                exact hns v (by rw [he]; exact hd)
              simp [regAppend, hst]
          | derived fn ds =>
              have hfold : ∀ (l : List Nat) (r : Reg),
                  (l.foldl (fun r j => Blackboards.addDependent decls d fuel j r) r) s
                    = r s := by
                intro l
                induction l with
                | nil => intro r; rfl
                | cons a l ihl =>
                    intro r
                    simp only [List.foldl_cons]
                    rw [ihl (Blackboards.addDependent decls d fuel a r)]
                    exact ih a r
              exact hfold ds reg

/-- C4: only source declarations ever carry a nonempty Dependent Registry;
registering a derived field with a derived upstream forwards the registration
recursively until it reaches source declarations, so any name with a nonempty
registry is a source. -/
theorem registry_only_sources (decls : List Decl) (order : List Nat) (s : Nat)
    (h : Blackboards.buildReg decls order s ≠ []) :
    ∃ v, decls.get? s = some (Decl.source v) := by
  by_contra hc
  push_neg at hc
  apply h
  have hreg : ∀ (l : List Nat) (r : Reg), r s = [] →
      (l.foldl (fun r i => Blackboards.registerDecl decls i r) r) s = [] := by
    intro l
    induction l with
    | nil => intro r hr; exact hr
    | cons a l ihl =>
        intro r hr
        simp only [List.foldl_cons]
        apply ihl
        show Blackboards.registerDecl decls a r s = []
        cases hd : decls.get? a with
        | none =>
            have hre : Blackboards.registerDecl decls a r = r := by
              unfold Blackboards.registerDecl
              rw [hd]
            rw [hre]
            exact hr
        | some dc =>
            cases dc with
            | source v =>
                have hre : Blackboards.registerDecl decls a r = r := by
                  unfold Blackboards.registerDecl
                  rw [hd]
                rw [hre]
                exact hr
            | derived fn ds =>
                have hre : Blackboards.registerDecl decls a r
                    = ds.foldl
                        (fun r j => Blackboards.addDependent decls a decls.length j r)
                        r := by
                  unfold Blackboards.registerDecl
                  rw [hd]
                have hm : ∀ (m : List Nat) (r' : Reg),
                    (m.foldl
                      (fun r' j => Blackboards.addDependent decls a decls.length j r')
                      r') s = r' s := by
                  intro m
                  induction m with
                  | nil => intro r'; rfl
                  | cons b m ihm =>
                      intro r'
                      simp only [List.foldl_cons]
                      rw [ihm (Blackboards.addDependent decls a decls.length b r')]
                      exact addDep_nonsource decls a s hc decls.length b r'
                rw [hre, hm ds r]
                exact hr
  exact hreg order emptyReg rfl

/-- Witness for C4 on the scenario class: source `a` has the nonempty registry
`[c, d]`, and the theorem yields that it is declared as a source. -/
theorem registry_only_sources_witness :
    Blackboards.buildReg exDecls exOrder 0 ≠ []
    ∧ ∃ v, exDecls.get? 0 = some (Decl.source v) :=
  ⟨by decide, registry_only_sources exDecls exOrder 0 (by decide)⟩

/-- Registration of dependent `d` only appends copies of `d` at the end of
registries. -/
theorem addDep_append (decls : List Decl) (d : Nat) :
    ∀ fuel t reg s, ∃ k,
      Blackboards.addDependent decls d fuel t reg s
        = reg s ++ List.replicate k d := by
  intro fuel
  induction fuel with
  | zero =>
      intro t reg s
      unfold Blackboards.addDependent
      cases hd : decls.get? t with
      | none => exact ⟨0, by simp⟩
      | some dc =>
          cases dc with
          | source v =>
              by_cases hst : s = t
              · exact ⟨1, by simp [regAppend, hst]⟩
              · exact ⟨0, by simp [regAppend, hst]⟩
          | derived fn ds => exact ⟨0, by simp⟩
  | succ fuel ih =>
      intro t reg s
      unfold Blackboards.addDependent
      cases hd : decls.get? t with
      | none => exact ⟨0, by simp⟩
      | some dc =>
          cases dc with
          | source v =>
              by_cases hst : s = t
              · exact ⟨1, by simp [regAppend, hst]⟩
              · exact ⟨0, by simp [regAppend, hst]⟩
          | derived fn ds =>
              have hfold : ∀ (l : List Nat) (r : Reg), ∃ k,
                  (l.foldl (fun r j => Blackboards.addDependent decls d fuel j r) r) s
                    = r s ++ List.replicate k d := by
                intro l
                induction l with
                | nil => intro r; exact ⟨0, by simp⟩
                | cons a l ihl =>
                    intro r
                    obtain ⟨k1, hk1⟩ := ih a r s
                    obtain ⟨k2, hk2⟩ :=
                      ihl (Blackboards.addDependent decls d fuel a r)
                    refine ⟨k1 + k2, ?_⟩
                    simp only [List.foldl_cons]
                    rw [hk2, hk1, List.append_assoc, ← List.replicate_add]
              exact hfold ds reg

/-- Folding registration of `d` over a list of targets appends only copies of
`d`. -/
theorem addDepFoldl_append (decls : List Decl) (d fuel : Nat) :
    ∀ (l : List Nat) (reg : Reg) (s : Nat), ∃ k,
      (l.foldl (fun r j => Blackboards.addDependent decls d fuel j r) reg) s
        = reg s ++ List.replicate k d := by
  intro l
  induction l with
  | nil => intro reg s; exact ⟨0, by simp⟩
  | cons a l ihl =>
      intro reg s
      obtain ⟨k1, hk1⟩ := addDep_append decls d fuel a reg s
      obtain ⟨k2, hk2⟩ := ihl (Blackboards.addDependent decls d fuel a reg) s
      refine ⟨k1 + k2, ?_⟩
      simp only [List.foldl_cons]
      rw [hk2, hk1, List.append_assoc, ← List.replicate_add]

/-- Processing one `__set_name__` call appends only copies of the bound name
to registries. -/
theorem registerDecl_append (decls : List Decl) (i : Nat) (reg : Reg) (s : Nat) :
    ∃ k, Blackboards.registerDecl decls i reg s = reg s ++ List.replicate k i := by
  unfold Blackboards.registerDecl
  cases hd : decls.get? i with
  | none => exact ⟨0, by simp⟩
  | some dc =>
      cases dc with
      | source v => exact ⟨0, by simp⟩
      | derived fn ds => exact addDepFoldl_append decls i decls.length ds reg s

/-- A member of a registry after one registration step is an old member or the
registered name itself, which is then a derived declaration. -/
theorem registerDecl_mem (decls : List Decl) (a : Nat) (reg : Reg) (s d : Nat)
    (hd : d ∈ Blackboards.registerDecl decls a reg s) :
    d ∈ reg s ∨ (d = a ∧ ∃ fn ds, decls.get? a = some (Decl.derived fn ds)) := by
  cases ha : decls.get? a with
  | none =>
      have hre : Blackboards.registerDecl decls a reg = reg := by
        unfold Blackboards.registerDecl
        rw [ha]
      rw [hre] at hd
      exact Or.inl hd
  | some dc =>
      cases dc with
      | source v =>
          have hre : Blackboards.registerDecl decls a reg = reg := by
            unfold Blackboards.registerDecl
            rw [ha]
          rw [hre] at hd
          exact Or.inl hd
      | derived fn ds =>
          have hre : Blackboards.registerDecl decls a reg
              = ds.foldl
                  (fun r j => Blackboards.addDependent decls a decls.length j r)
                  reg := by
            unfold Blackboards.registerDecl
            rw [ha]
          rw [hre] at hd
          obtain ⟨k, hk⟩ := addDepFoldl_append decls a decls.length ds reg s
          rw [hk] at hd
          rcases List.mem_append.mp hd with h1 | h2
          · exact Or.inl h1
          · exact Or.inr ⟨List.eq_of_mem_replicate h2, fn, ds, rfl⟩

/-- Every member of a built registry is a derived declaration. -/
theorem buildReg_elem (decls : List Decl) (order : List Nat) :
    ∀ s d, d ∈ Blackboards.buildReg decls order s →
      ∃ fn ds, decls.get? d = some (Decl.derived fn ds) := by
  have h : ∀ (l : List Nat) (r : Reg),
      (∀ s d, d ∈ r s → ∃ fn ds, decls.get? d = some (Decl.derived fn ds)) →
      ∀ s d, d ∈ (l.foldl (fun r i => Blackboards.registerDecl decls i r) r) s →
        ∃ fn ds, decls.get? d = some (Decl.derived fn ds) := by
    intro l
    induction l with
    | nil => exact fun r hr => hr
    | cons a l ihl =>
        intro r hr
        apply ihl
        intro s d hd
        rcases registerDecl_mem decls a r s d hd with h1 | ⟨he, fn, ds, ha⟩
        · exact hr s d h1
        · exact ⟨fn, ds, by rw [he]; exact ha⟩
  intro s d hd
  refine h order emptyReg ?_ s d hd
  intro s d hd
  exact absurd hd (by simp [emptyReg])

/-- Recomputing a derived declaration leaves a present entry at any other name
untouched. -/
theorem update_pres_other (decls : List Decl) (d x : Nat) (s : St)
    (w : AsyncValue) (hx : x ≠ d) (hw : s.store x = some w) :
    (Blackboards.update decls d s).store x = some w := by
  have h1 : (Blackboards.ensure decls decls.length d s).store x = some w :=
    ensure_pres decls decls.length d s x w hw
  have h2 : (Blackboards.computeValue decls d
      (Blackboards.ensure decls decls.length d s)).2.store x = some w := by
    unfold Blackboards.computeValue
    cases hd : decls.get? d with
    | none => exact h1
    | some dc =>
        cases dc with
        | source v => exact h1
        | derived fn ds =>
            simp only [hd]
            exact ensure_foldl_pres decls decls.length ds _ x w h1
  show (setValue d
      (Blackboards.computeValue decls d
        (Blackboards.ensure decls decls.length d s)).1
      (Blackboards.computeValue decls d
        (Blackboards.ensure decls decls.length d s)).2).store x = some w
  rw [setValue_store_other d x _ _ hx]
  exact h2

/-- C3: a source-field write first ensures the instance's wrapper exists, then
sets the wrapper's contained value to the new value, then recomputes the
declarations of the source's Dependent Registry in registry order against that
instance — all before the write returns, whose resulting state is exactly that
fold; moreover the written value is in place when the write returns. -/
theorem source_write_phases (decls : List Decl) (order : List Nat) (i : Nat)
    (v : Int) (st : St) (v0 : Int)
    (hsrc : decls.get? i = some (Decl.source v0)) :
    Blackboards.setField decls (Blackboards.buildReg decls order) i v st
      = (Blackboards.buildReg decls order i).foldl
          (fun s d => Blackboards.update decls d s)
          (setValue i v (Blackboards.ensure decls decls.length i st))
    ∧ ((Blackboards.setField decls
          (Blackboards.buildReg decls order) i v st).store i).map
        AsyncValue.value = some v := by
  constructor
  · rfl
  · have hi : i < decls.length := get?_some_lt hsrc
    obtain ⟨u, hu⟩ := ensure_isSome decls decls.length i st (by omega) hi
    have h2 : (setValue i v (Blackboards.ensure decls decls.length i st)).store i
        = some (AsyncValue.mk u.id v) := setValue_store_at _ _ _ _ hu
    have hfold : ∀ (l : List Nat) (s : St) (w : AsyncValue),
        (∀ d ∈ l, d ≠ i) → s.store i = some w →
        ((l.foldl (fun s d => Blackboards.update decls d s) s).store i = some w) := by
      intro l
      induction l with
      | nil => intro s w _ hs; exact hs
      | cons a l ihl =>
          intro s w hne hs
          apply ihl _ w (fun d hd => hne d (List.mem_cons_of_mem a hd))
          exact update_pres_other decls a i s w
            (Ne.symm (hne a (List.mem_cons_self a l))) hs
    have hne : ∀ d ∈ Blackboards.buildReg decls order i, d ≠ i := by
      intro d hd he
      obtain ⟨fn, ds, hder⟩ := buildReg_elem decls order i d hd
      rw [he, hsrc] at hder
      exact Decl.noConfusion (Option.some.inj hder)
    have heq : (Blackboards.setField decls
        (Blackboards.buildReg decls order) i v st).store i
        = some (AsyncValue.mk u.id v) :=
      hfold (Blackboards.buildReg decls order i) _ _ hne h2
    rw [heq]
    rfl

/-- Witness for C3 on the scenario class: writing `a = 2` on a fresh instance
runs the three phases and leaves `a`'s wrapper holding 2. -/
theorem source_write_phases_witness :
    exDecls.get? 0 = some (Decl.source 1)
    ∧ (Blackboards.setField exDecls (Blackboards.buildReg exDecls exOrder) 0 2 St.fresh
        = (Blackboards.buildReg exDecls exOrder 0).foldl
            (fun s d => Blackboards.update exDecls d s)
            (setValue 0 2 (Blackboards.ensure exDecls exDecls.length 0 St.fresh))
      ∧ ((Blackboards.setField exDecls
            (Blackboards.buildReg exDecls exOrder) 0 2 St.fresh).store 0).map
          AsyncValue.value = some 2) :=
  ⟨rfl, source_write_phases exDecls exOrder 0 2 St.fresh 1 rfl⟩

/-- Materialization is a no-op when the entry already exists. -/
theorem ensure_present_noop (decls : List Decl) (fuel i : Nat) (st : St)
    (w : AsyncValue) (hw : st.store i = some w) :
    Blackboards.ensure decls fuel i st = st := by
  cases fuel with
  | zero =>
      unfold Blackboards.ensure
      rw [hw]
  | succ fuel =>
      unfold Blackboards.ensure
      rw [hw]

/-- Reading an attribute whose entry exists returns that very wrapper and
leaves the state unchanged. -/
theorem getAttr_present (decls : List Decl) (i : Nat) (st : St) (w : AsyncValue)
    (hw : st.store i = some w) :
    Blackboards.getAttr decls i st = (w, st) := by
  unfold Blackboards.getAttr
  rw [ensure_present_noop decls decls.length i st w hw]
  show ((st.store i).getD (AsyncValue.mk 0 0), st) = (w, st)
  rw [hw]
  rfl

/-- After a read of a declared attribute, the returned wrapper is exactly the
stored entry. -/
theorem getAttr_store (decls : List Decl) (i : Nat) (st : St)
    (hi : i < decls.length) :
    ((Blackboards.getAttr decls i st).2).store i
      = some (Blackboards.getAttr decls i st).1 := by
  obtain ⟨u, hu⟩ := ensure_isSome decls decls.length i st (by omega) hi
  show (Blackboards.ensure decls decls.length i st).store i
      = some (((Blackboards.ensure decls decls.length i st).store i).getD
          (AsyncValue.mk 0 0))
  rw [hu]
  rfl

/-- State evolution preserves wrapper identity: every entry present before is
present after, with the same allocation id (only the value may differ). -/
def IdPres (st st' : St) : Prop :=
  ∀ x w, st.store x = some w → ∃ v, st'.store x = some (AsyncValue.mk w.id v)

theorem idPres_refl (st : St) : IdPres st st :=
  fun x w h => ⟨w.value, by rw [h]⟩

theorem idPres_trans {s1 s2 s3 : St} (h12 : IdPres s1 s2) (h23 : IdPres s2 s3) :
    IdPres s1 s3 := by
  intro x w h
  obtain ⟨v, hv⟩ := h12 x w h
  obtain ⟨v', hv'⟩ := h23 x (AsyncValue.mk w.id v) hv
  exact ⟨v', hv'⟩

theorem ensure_idPres (decls : List Decl) (fuel i : Nat) (st : St) :
    IdPres st (Blackboards.ensure decls fuel i st) :=
  fun x w h => ⟨w.value, by rw [ensure_pres decls fuel i st x w h]⟩

theorem setValue_idPres (i : Nat) (v : Int) (st : St) :
    IdPres st (setValue i v st) := by
  intro x w h
  by_cases hx : x = i
  · subst hx
    exact ⟨v, by simp [setValue, h]⟩
  · exact ⟨w.value, by rw [setValue_store_other i x v st hx, h]⟩

/-- The state component of `_compute_value` preserves existing entries
verbatim. -/
theorem computeValue_sndPres (decls : List Decl) (d x : Nat) (st : St)
    (w : AsyncValue) (h : st.store x = some w) :
    (Blackboards.computeValue decls d st).2.store x = some w := by
  unfold Blackboards.computeValue
  cases hd : decls.get? d with
  | none => exact h
  | some dc =>
      cases dc with
      | source v => exact h
      | derived fn ds =>
          simp only [hd]
          exact ensure_foldl_pres decls decls.length ds st x w h

theorem update_idPres (decls : List Decl) (d : Nat) (st : St) :
    IdPres st (Blackboards.update decls d st) := by
  intro x w h
  have h1 := ensure_pres decls decls.length d st x w h
  have h2 := computeValue_sndPres decls d x
    (Blackboards.ensure decls decls.length d st) w h1
  exact setValue_idPres d _ _ x w h2

theorem updateFoldl_idPres (decls : List Decl) :
    ∀ (l : List Nat) (st : St),
      IdPres st (l.foldl (fun s d => Blackboards.update decls d s) st) := by
  intro l
  induction l with
  | nil => intro st; exact idPres_refl st
  | cons a l ihl =>
      intro st
      exact idPres_trans (update_idPres decls a st)
        (ihl (Blackboards.update decls a st))

theorem setField_idPres (decls : List Decl) (reg : Reg) (i : Nat) (v : Int)
    (st : St) : IdPres st (Blackboards.setField decls reg i v st) :=
  idPres_trans (ensure_idPres decls decls.length i st)
    (idPres_trans
      (setValue_idPres i v (Blackboards.ensure decls decls.length i st))
      (updateFoldl_idPres decls (reg i)
        (setValue i v (Blackboards.ensure decls decls.length i st))))

theorem runOp_idPres (decls : List Decl) (reg : Reg) (st : St) (op : Op) :
    IdPres st (Blackboards.runOp decls reg st op) := by
  cases op with
  | read i => exact ensure_idPres decls decls.length i st
  | write i v =>
      cases hd : decls.get? i with
      | none =>
          have hre : Blackboards.runOp decls reg st (Op.write i v) = st := by
            simp only [Blackboards.runOp, Blackboards.setAttr, hd]
          rw [hre]
          exact idPres_refl st
      | some dc =>
          cases dc with
          | source v0 =>
              have hre : Blackboards.runOp decls reg st (Op.write i v)
                  = Blackboards.setField decls reg i v st := by
                simp only [Blackboards.runOp, Blackboards.setAttr, hd]
              rw [hre]
              exact setField_idPres decls reg i v st
          | derived fn ds =>
              have hre : Blackboards.runOp decls reg st (Op.write i v) = st := by
                simp only [Blackboards.runOp, Blackboards.setAttr, hd]
              rw [hre]
              exact idPres_refl st

theorem runOps_idPres (decls : List Decl) (reg : Reg) :
    ∀ (ops : List Op) (st : St), IdPres st (Blackboards.runOps decls reg ops st) := by
  intro ops
  induction ops with
  | nil => intro st; exact idPres_refl st
  | cons op ops ihl =>
      intro st
      exact idPres_trans (runOp_idPres decls reg st op)
        (ihl (Blackboards.runOp decls reg st op))

/-- C6: wrapper identity is stable.  Two successive reads of a declared
attribute return the identical wrapper object and state, and after any
sequence of reads and writes — including source writes that change values —
a read still returns a wrapper with the same identity as the first read: the
wrapper of an (instance, attribute) pair is never replaced, only its value
changes. -/
theorem wrapper_identity_stable (decls : List Decl) (reg : Reg) (i : Nat)
    (hi : i < decls.length) (st : St) :
    Blackboards.getAttr decls i ((Blackboards.getAttr decls i st).2)
        = Blackboards.getAttr decls i st
    ∧ ∀ ops : List Op,
        (Blackboards.getAttr decls i
            (Blackboards.runOps decls reg ops
              ((Blackboards.getAttr decls i st).2))).1.id
          = (Blackboards.getAttr decls i st).1.id := by
  have hstore := getAttr_store decls i st hi
  constructor
  · rw [getAttr_present decls i _ _ hstore]
  · intro ops
    obtain ⟨v, hv⟩ :=
      runOps_idPres decls reg ops ((Blackboards.getAttr decls i st).2) i
        (Blackboards.getAttr decls i st).1 hstore
    rw [getAttr_present decls i _ _ hv]

/-- Witness for C6 on the scenario class: reading `c` twice on a fresh
instance, and reading it again after writing `a = 2`, always yields the same
wrapper identity. -/
theorem wrapper_identity_stable_witness :
    (2 : Nat) < exDecls.length
    ∧ (Blackboards.getAttr exDecls 2 ((Blackboards.getAttr exDecls 2 St.fresh).2)
          = Blackboards.getAttr exDecls 2 St.fresh
      ∧ ∀ ops : List Op,
          (Blackboards.getAttr exDecls 2
              (Blackboards.runOps exDecls exReg ops
                ((Blackboards.getAttr exDecls 2 St.fresh).2))).1.id
            = (Blackboards.getAttr exDecls 2 St.fresh).1.id) :=
  ⟨by decide, wrapper_identity_stable exDecls exReg 2 (by decide) St.fresh⟩

/-- The initial value of a declared attribute, defined recursively as in the
spec: a source's declared initial value, and for a derived declaration the
compute function applied to the initial values of its upstream declarations. -/
def initValue (decls : List Decl) : Nat → Nat → Int
  | 0, i =>
      match decls.get? i with
      | some (Decl.source v) => v
      | _ => 0
  | fuel + 1, i =>
      match decls.get? i with
      | some (Decl.source v) => v
      | some (Decl.derived fn ds) => fn (ds.map (initValue decls fuel))
      | none => 0

theorem depsOf_eq (decls : List Decl) (i : Nat) (fn : List Int → Int)
    (ds : List Nat) (hd : decls.get? i = some (Decl.derived fn ds)) :
    depsOf decls i = ds := by
  unfold depsOf
  rw [hd]

theorem initValue_source (decls : List Decl) (i : Nat) (v : Int)
    (hd : decls.get? i = some (Decl.source v)) :
    ∀ fuel, initValue decls fuel i = v := by
  intro fuel
  cases fuel with
  | zero => unfold initValue; rw [hd]
  | succ fuel => unfold initValue; rw [hd]

theorem initValue_derived (decls : List Decl) (i fuel : Nat)
    (fn : List Int → Int) (ds : List Nat)
    (hd : decls.get? i = some (Decl.derived fn ds)) :
    initValue decls (fuel + 1) i = fn (ds.map (initValue decls fuel)) := by
  unfold initValue
  rw [hd]

theorem initValue_none (decls : List Decl) (i : Nat)
    (hd : decls.get? i = none) : ∀ fuel, initValue decls fuel i = 0 := by
  intro fuel
  cases fuel with
  | zero => unfold initValue; rw [hd]
  | succ fuel => unfold initValue; rw [hd]

theorem valueAtD_eq (j : Nat) (st : St) (w : AsyncValue)
    (hw : st.store j = some w) : valueAtD j st = w.value := by
  unfold valueAtD
  rw [hw]

/-- Under creation well-formedness the initial value is independent of the
fuel, as long as the fuel exceeds the declaration index. -/
theorem initValue_stable (decls : List Decl) (hwf : CreationWF decls) :
    ∀ i f1 f2, i < f1 → i < f2 →
      initValue decls f1 i = initValue decls f2 i := by
  intro i
  induction i using Nat.strong_induction_on with
  | _ i ih =>
      intro f1 f2 h1 h2
      obtain ⟨a, rfl⟩ : ∃ a, f1 = a + 1 := ⟨f1 - 1, by omega⟩
      obtain ⟨b, rfl⟩ : ∃ b, f2 = b + 1 := ⟨f2 - 1, by omega⟩
      cases hd : decls.get? i with
      | none => rw [initValue_none decls i hd, initValue_none decls i hd]
      | some dc =>
          cases dc with
          | source v =>
              rw [initValue_source decls i v hd, initValue_source decls i v hd]
          | derived fn ds =>
              have hds : ∀ j ∈ ds, j < i := by
                intro j hj
                exact hwf i (get?_some_lt hd) j
                  ((depsOf_eq decls i fn ds hd).symm ▸ hj)
              rw [initValue_derived decls i a fn ds hd,
                initValue_derived decls i b fn ds hd]
              congr 1
              apply List.map_congr_left
              intro j hj
              exact ih j (hds j hj) a b (by have := hds j hj; omega)
                (by have := hds j hj; omega)

/-- Invariant of an instance on which no source write has occurred: every
materialized entry holds its initial value. -/
def InitCons (decls : List Decl) (st : St) : Prop :=
  ∀ j w, st.store j = some w → w.value = initValue decls decls.length j

theorem alloc_initCons (decls : List Decl) (i : Nat) (v : Int) (st : St)
    (hic : InitCons decls st)
    (hv : v = initValue decls decls.length i) :
    InitCons decls (alloc i v st) := by
  intro j w hj
  by_cases hji : j = i
  · subst hji
    rw [alloc_store_at] at hj
    injection hj with h
    rw [← h]
    exact hv
  · rw [alloc_store_other i j v st hji] at hj
    exact hic j w hj

/-- Lazy materialization on an init-consistent instance stays init-consistent
and materializes the requested declared attribute with its initial value. -/
theorem ensure_init (decls : List Decl) (hwf : CreationWF decls) :
    ∀ fuel i st, i < fuel → InitCons decls st →
      InitCons decls (Blackboards.ensure decls fuel i st)
      ∧ (i < decls.length →
          ∃ w, (Blackboards.ensure decls fuel i st).store i = some w
            ∧ w.value = initValue decls decls.length i) := by
  intro fuel
  induction fuel with
  | zero =>
      intro i st hif
      exact absurd hif (by omega)
  | succ fuel ih =>
      intro i st hif hic
      unfold Blackboards.ensure
      cases hs : st.store i with
      | some u =>
          simp only [hs]
          exact ⟨hic, fun _ => ⟨u, rfl, hic i u hs⟩⟩
      | none =>
          simp only [hs]
          cases hd : decls.get? i with
          | none =>
              refine ⟨hic, fun hi => ?_⟩
              have := List.get?_eq_none.mp hd
              omega
          | some dc =>
              cases dc with
              | source v =>
                  refine ⟨alloc_initCons decls i v st hic
                    (initValue_source decls i v hd decls.length).symm, fun hi => ?_⟩
                  exact ⟨AsyncValue.mk st.nextId v, alloc_store_at i v st,
                    (initValue_source decls i v hd decls.length).symm⟩
              | derived fn ds =>
                  simp only []
                  have hin : i < decls.length := get?_some_lt hd
                  have hds : ∀ j ∈ ds, j < i := by
                    intro j hj
                    exact hwf i hin j ((depsOf_eq decls i fn ds hd).symm ▸ hj)
                  have hfold : ∀ (l : List Nat) (s : St), (∀ j ∈ l, j < fuel) →
                      InitCons decls s →
                      InitCons decls
                        (l.foldl (fun s j => Blackboards.ensure decls fuel j s) s)
                      ∧ ∀ j ∈ l, j < decls.length →
                          ∃ w, (l.foldl
                              (fun s j => Blackboards.ensure decls fuel j s) s).store j
                            = some w ∧ w.value = initValue decls decls.length j := by
                    intro l
                    induction l with
                    | nil =>
                        intro s _ hics
                        exact ⟨hics, fun j hj => absurd hj (by simp)⟩
                    | cons a l ihl =>
                        intro s hl hics
                        obtain ⟨hic1, hat⟩ := ih a s (hl a (List.mem_cons_self a l)) hics
                        obtain ⟨hic2, hrest⟩ :=
                          ihl (Blackboards.ensure decls fuel a s)
                            (fun j hj => hl j (List.mem_cons_of_mem a hj)) hic1
                        refine ⟨by simpa using hic2, ?_⟩
                        intro j hj hjn
                        rcases List.mem_cons.mp hj with rfl | hj'
                        · obtain ⟨w, hw, hv⟩ := hat hjn
                          refine ⟨w, ?_, hv⟩
                          simp only [List.foldl_cons]
                          exact ensure_foldl_pres decls fuel l _ j w hw
                        · obtain ⟨w, hw, hv⟩ := hrest j hj' hjn
                          exact ⟨w, by simpa using hw, hv⟩
                  obtain ⟨hic1, hvals⟩ := hfold ds st
                    (fun j hj => by have := hds j hj; omega) hic
                  have hmap :
                      ds.map (fun j => valueAtD j
                        (ds.foldl (fun s j => Blackboards.ensure decls fuel j s) st))
                      = ds.map (initValue decls decls.length) := by
                    apply List.map_congr_left
                    intro j hj
                    obtain ⟨w, hw, hv⟩ := hvals j hj (by have := hds j hj; omega)
                    rw [valueAtD_eq j _ w hw]
                    exact hv
                  have hval : fn (ds.map (fun j => valueAtD j
                        (ds.foldl (fun s j => Blackboards.ensure decls fuel j s) st)))
                      = initValue decls decls.length i := by
                    rw [hmap]
                    obtain ⟨m, hm⟩ : ∃ m, decls.length = m + 1 :=
                      ⟨decls.length - 1, by omega⟩
                    rw [hm, initValue_derived decls i m fn ds hd]
                    congr 1
                    apply List.map_congr_left
                    intro j hj
                    exact initValue_stable decls hwf j (m + 1) m
                      (by have := hds j hj; omega) (by have := hds j hj; omega)
                  refine ⟨alloc_initCons decls i _ _ hic1 hval, fun hi => ?_⟩
                  exact ⟨AsyncValue.mk _ _, alloc_store_at i _ _, hval⟩

/-- C7: on a freshly constructed instance, before any source write, reading
any declared attribute returns a wrapper holding its initial value: for a
source its declared initial value, and for a derived declaration the compute
function applied to the (recursively defined) initial values of its upstream
declarations. -/
theorem fresh_read_init (decls : List Decl) (hwf : CreationWF decls) (i : Nat)
    (hi : i < decls.length) :
    (Blackboards.getAttr decls i St.fresh).1.value
        = initValue decls decls.length i
    ∧ (∀ v, decls.get? i = some (Decl.source v) →
        (Blackboards.getAttr decls i St.fresh).1.value = v)
    ∧ (∀ fn ds, decls.get? i = some (Decl.derived fn ds) →
        (Blackboards.getAttr decls i St.fresh).1.value
          = fn (ds.map (initValue decls decls.length))) := by
  have hfresh : InitCons decls St.fresh := by
    intro j w hj
    exact absurd hj (by simp [St.fresh])
  obtain ⟨_, hat⟩ :=
    ensure_init decls hwf decls.length i St.fresh (by omega) hfresh
  obtain ⟨w, hw, hv⟩ := hat hi
  have hval : (Blackboards.getAttr decls i St.fresh).1.value
      = initValue decls decls.length i := by
    show (((Blackboards.ensure decls decls.length i St.fresh).store i).getD
        (AsyncValue.mk 0 0)).value = initValue decls decls.length i
    rw [hw]
    exact hv
  refine ⟨hval, fun v hd => ?_, fun fn ds hd => ?_⟩
  · rw [hval]
    exact initValue_source decls i v hd decls.length
  · rw [hval]
    obtain ⟨m, hm⟩ : ∃ m, decls.length = m + 1 := ⟨decls.length - 1, by omega⟩
    rw [hm, initValue_derived decls i m fn ds hd]
    congr 1
    apply List.map_congr_left
    intro j hj
    have hji : j < i := hwf i hi j ((depsOf_eq decls i fn ds hd).symm ▸ hj)
    rw [← hm]
    exact initValue_stable decls hwf j m decls.length (by omega) (by omega)

/-- Witness for C7 on the scenario class: reading `d` on a fresh instance
yields `2 * (1 + 2) = 6`, the compute function over upstream initial
values. -/
theorem fresh_read_init_witness :
    CreationWF exDecls
    ∧ (3 : Nat) < exDecls.length
    ∧ ((Blackboards.getAttr exDecls 3 St.fresh).1.value
          = initValue exDecls exDecls.length 3
      ∧ (∀ v, exDecls.get? 3 = some (Decl.source v) →
          (Blackboards.getAttr exDecls 3 St.fresh).1.value = v)
      ∧ (∀ fn ds, exDecls.get? 3 = some (Decl.derived fn ds) →
          (Blackboards.getAttr exDecls 3 St.fresh).1.value
            = fn (ds.map (initValue exDecls exDecls.length)))) :=
  ⟨by unfold CreationWF; decide, by decide,
    fresh_read_init exDecls (by unfold CreationWF; decide) 3 (by decide)⟩

/-- Registration forwarding reaches source `s` from target `t`: the Boolean
mirror of the recursion of `_add_dependent`, with the same fuel discipline. -/
def reachesSrc (decls : List Decl) : Nat → Nat → Nat → Bool
  | 0, t, s =>
      match decls.get? t with
      | some (Decl.source _) => t == s
      | _ => false
  | fuel + 1, t, s =>
      match decls.get? t with
      | some (Decl.source _) => t == s
      | some (Decl.derived _ ds) => ds.any (fun j => reachesSrc decls fuel j s)
      | none => false

theorem reachesSrc_source (decls : List Decl) (t s : Nat) (v : Int)
    (hd : decls.get? t = some (Decl.source v)) :
    ∀ fuel, reachesSrc decls fuel t s = (t == s) := by
  intro fuel
  cases fuel with
  | zero => unfold reachesSrc; rw [hd]
  | succ fuel => unfold reachesSrc; rw [hd]

theorem reachesSrc_none (decls : List Decl) (t s : Nat)
    (hd : decls.get? t = none) :
    ∀ fuel, reachesSrc decls fuel t s = false := by
  intro fuel
  cases fuel with
  | zero => unfold reachesSrc; rw [hd]
  | succ fuel => unfold reachesSrc; rw [hd]

theorem reachesSrc_derived_zero (decls : List Decl) (t s : Nat)
    (fn : List Int → Int) (ds : List Nat)
    (hd : decls.get? t = some (Decl.derived fn ds)) :
    reachesSrc decls 0 t s = false := by
  unfold reachesSrc
  rw [hd]

theorem reachesSrc_derived (decls : List Decl) (t s fuel : Nat)
    (fn : List Int → Int) (ds : List Nat)
    (hd : decls.get? t = some (Decl.derived fn ds)) :
    reachesSrc decls (fuel + 1) t s
      = ds.any (fun j => reachesSrc decls fuel j s) := by
  show (match decls.get? t with
    | some (Decl.source _) => t == s
    | some (Decl.derived _ ds) => ds.any (fun j => reachesSrc decls fuel j s)
    | none => false)
      = ds.any (fun j => reachesSrc decls fuel j s)
  rw [hd]

theorem addDep_source_eq (decls : List Decl) (d t : Nat) (reg : Reg) (v : Int)
    (hd : decls.get? t = some (Decl.source v)) :
    ∀ fuel, Blackboards.addDependent decls d fuel t reg = regAppend t d reg := by
  intro fuel
  cases fuel with
  | zero => unfold Blackboards.addDependent; rw [hd]
  | succ fuel => unfold Blackboards.addDependent; rw [hd]

theorem addDep_none_eq (decls : List Decl) (d t : Nat) (reg : Reg)
    (hd : decls.get? t = none) :
    ∀ fuel, Blackboards.addDependent decls d fuel t reg = reg := by
  intro fuel
  cases fuel with
  | zero => unfold Blackboards.addDependent; rw [hd]
  | succ fuel => unfold Blackboards.addDependent; rw [hd]

theorem addDep_derived_zero_eq (decls : List Decl) (d t : Nat) (reg : Reg)
    (fn : List Int → Int) (ds : List Nat)
    (hd : decls.get? t = some (Decl.derived fn ds)) :
    Blackboards.addDependent decls d 0 t reg = reg := by
  unfold Blackboards.addDependent
  rw [hd]

theorem addDep_derived_eq (decls : List Decl) (d t fuel : Nat) (reg : Reg)
    (fn : List Int → Int) (ds : List Nat)
    (hd : decls.get? t = some (Decl.derived fn ds)) :
    Blackboards.addDependent decls d (fuel + 1) t reg
      = ds.foldl (fun r j => Blackboards.addDependent decls d fuel j r) reg := by
  show (match decls.get? t with
    | some (Decl.source _) => regAppend t d reg
    | some (Decl.derived _ ds) =>
        ds.foldl (fun r j => Blackboards.addDependent decls d fuel j r) reg
    | none => reg)
      = ds.foldl (fun r j => Blackboards.addDependent decls d fuel j r) reg
  rw [hd]

theorem depsOf_none (decls : List Decl) (a : Nat) (hd : decls.get? a = none) :
    depsOf decls a = [] := by
  unfold depsOf
  rw [hd]

theorem depsOf_src (decls : List Decl) (a : Nat) (v : Int)
    (hd : decls.get? a = some (Decl.source v)) : depsOf decls a = [] := by
  unfold depsOf
  rw [hd]

/-- A direct dependency always has a strictly smaller creation index. -/
theorem depsOf_mem_lt (decls : List Decl) (hwf : CreationWF decls) (a b : Nat)
    (hb : b ∈ depsOf decls a) : b < a := by
  cases hd : decls.get? a with
  | none =>
      rw [depsOf_none decls a hd] at hb
      exact absurd hb (List.not_mem_nil b)
  | some dc =>
      cases dc with
      | source v =>
          rw [depsOf_src decls a v hd] at hb
          exact absurd hb (List.not_mem_nil b)
      | derived fn ds => exact hwf a (get?_some_lt hd) b hb

/-- Transitive reads point strictly downwards in creation order. -/
theorem Reads_lt (decls : List Decl) (hwf : CreationWF decls) :
    ∀ a b, Reads decls a b → b < a := by
  intro a b h
  induction h with
  | direct a b hb => exact depsOf_mem_lt decls hwf a b hb
  | step a b c hb _ ih => exact Nat.lt_trans ih (depsOf_mem_lt decls hwf a b hb)

theorem Reads_inv (decls : List Decl) (a c : Nat) (h : Reads decls a c) :
    ∃ b, b ∈ depsOf decls a ∧ (b = c ∨ Reads decls b c) := by
  cases h with
  | direct _ _ hb => exact ⟨c, hb, Or.inl rfl⟩
  | step _ b _ hb hr => exact ⟨b, hb, Or.inr hr⟩

/-- Soundness of reachability: it ends at a source that is transitively
read (or is the starting point itself). -/
theorem reaches_sound (decls : List Decl) :
    ∀ fuel t s, reachesSrc decls fuel t s = true →
      isSrc decls s ∧ (t = s ∨ Reads decls t s) := by
  intro fuel
  induction fuel with
  | zero =>
      intro t s h
      cases hd : decls.get? t with
      | none =>
          rw [reachesSrc_none decls t s hd 0] at h
          exact absurd h (by simp)
      | some dc =>
          cases dc with
          | source v =>
              rw [reachesSrc_source decls t s v hd 0] at h
              have ht : t = s := by simpa using h
              subst ht
              exact ⟨⟨v, hd⟩, Or.inl rfl⟩
          | derived fn ds =>
              rw [reachesSrc_derived_zero decls t s fn ds hd] at h
              exact absurd h (by simp)
  | succ fuel ih =>
      intro t s h
      cases hd : decls.get? t with
      | none =>
          rw [reachesSrc_none decls t s hd] at h
          exact absurd h (by simp)
      | some dc =>
          cases dc with
          | source v =>
              rw [reachesSrc_source decls t s v hd] at h
              have ht : t = s := by simpa using h
              subst ht
              exact ⟨⟨v, hd⟩, Or.inl rfl⟩
          | derived fn ds =>
              rw [reachesSrc_derived decls t s fuel fn ds hd] at h
              obtain ⟨j, hj, hjr⟩ := List.any_eq_true.mp h
              obtain ⟨hsrc, hjs⟩ := ih j s hjr
              refine ⟨hsrc, Or.inr ?_⟩
              have hjd : j ∈ depsOf decls t := by
                rw [depsOf_eq decls t fn ds hd]
                exact hj
              cases hjs with
              | inl he =>
                  rw [he] at hjd
                  exact Reads.direct t s hjd
              | inr hr => exact Reads.step t j s hjd hr

/-- Completeness of reachability under creation well-formedness: with fuel
above the starting index, every source that is transitively read is
reached. -/
theorem reaches_complete (decls : List Decl) (hwf : CreationWF decls) :
    ∀ fuel j s, j < fuel → isSrc decls s → (j = s ∨ Reads decls j s) →
      reachesSrc decls fuel j s = true := by
  intro fuel
  induction fuel with
  | zero =>
      intro j s hj
      exact absurd hj (by omega)
  | succ fuel ih =>
      intro j s hj hsrc hjs
      rcases hjs with rfl | hr
      · obtain ⟨v, hv⟩ := hsrc
        rw [reachesSrc_source decls j j v hv]
        simp
      · obtain ⟨b, hb, hbc⟩ := Reads_inv decls j s hr
        cases hd : decls.get? j with
        | none =>
            rw [depsOf_none decls j hd] at hb
            exact absurd hb (List.not_mem_nil b)
        | some dc =>
            cases dc with
            | source v =>
                rw [depsOf_src decls j v hd] at hb
                exact absurd hb (List.not_mem_nil b)
            | derived fn ds =>
                rw [reachesSrc_derived decls j s fuel fn ds hd]
                apply List.any_eq_true.mpr
                have hbds : b ∈ ds := by
                  rw [← depsOf_eq decls j fn ds hd]
                  exact hb
                have hblt : b < j := depsOf_mem_lt decls hwf j b hb
                exact ⟨b, hbds, ih b s (by omega) hsrc hbc⟩

/-- Membership after one forwarding registration: an old member, or the
registered dependent when the target reaches the source. -/
theorem addDep_mem (decls : List Decl) (d : Nat) :
    ∀ fuel t reg s x,
      (x ∈ Blackboards.addDependent decls d fuel t reg s
        ↔ x ∈ reg s ∨ (x = d ∧ reachesSrc decls fuel t s = true)) := by
  intro fuel
  induction fuel with
  | zero =>
      intro t reg s x
      cases hd : decls.get? t with
      | none =>
          rw [addDep_none_eq decls d t reg hd 0, reachesSrc_none decls t s hd 0]
          simp
      | some dc =>
          cases dc with
          | source v =>
              rw [addDep_source_eq decls d t reg v hd 0,
                reachesSrc_source decls t s v hd 0]
              unfold regAppend
              by_cases hst : s = t
              · subst hst
                simp [List.mem_append]
              · have hts : t ≠ s := fun he => hst he.symm
                simp [hst, hts]
          | derived fn ds =>
              rw [addDep_derived_zero_eq decls d t reg fn ds hd,
                reachesSrc_derived_zero decls t s fn ds hd]
              simp
  | succ fuel ih =>
      intro t reg s x
      cases hd : decls.get? t with
      | none =>
          rw [addDep_none_eq decls d t reg hd, reachesSrc_none decls t s hd]
          simp
      | some dc =>
          cases dc with
          | source v =>
              rw [addDep_source_eq decls d t reg v hd,
                reachesSrc_source decls t s v hd]
              unfold regAppend
              by_cases hst : s = t
              · subst hst
                simp [List.mem_append]
              · have hts : t ≠ s := fun he => hst he.symm
                simp [hst, hts]
          | derived fn ds =>
              rw [addDep_derived_eq decls d t fuel reg fn ds hd,
                reachesSrc_derived decls t s fuel fn ds hd]
              have hfold : ∀ (l : List Nat) (r : Reg),
                  x ∈ (l.foldl
                      (fun r j => Blackboards.addDependent decls d fuel j r) r) s
                    ↔ x ∈ r s ∨ (x = d ∧ l.any
                        (fun j => reachesSrc decls fuel j s) = true) := by
                intro l
                induction l with
                | nil => intro r; simp
                | cons a l ihl =>
                    intro r
                    simp only [List.foldl_cons, List.any_cons]
                    rw [ihl (Blackboards.addDependent decls d fuel a r), ih a r s x]
                    simp only [Bool.or_eq_true]
                    tauto
              exact hfold ds reg

/-- Membership after folding one dependent's registration over its dependency
list. -/
theorem addDepFoldl_mem (decls : List Decl) (d fuel : Nat) :
    ∀ (l : List Nat) (reg : Reg) (s x : Nat),
      (x ∈ (l.foldl
          (fun r j => Blackboards.addDependent decls d fuel j r) reg) s
        ↔ x ∈ reg s ∨ (x = d ∧ ∃ j ∈ l, reachesSrc decls fuel j s = true)) := by
  intro l
  induction l with
  | nil => intro reg s x; simp
  | cons a l ihl =>
      intro reg s x
      simp only [List.foldl_cons]
      rw [ihl (Blackboards.addDependent decls d fuel a reg), addDep_mem decls d fuel a reg s x]
      constructor
      · rintro ((h | ⟨rfl, hr⟩) | ⟨rfl, j, hj, hr⟩)
        · exact Or.inl h
        · exact Or.inr ⟨rfl, a, List.mem_cons_self a l, hr⟩
        · exact Or.inr ⟨rfl, j, List.mem_cons_of_mem a hj, hr⟩
      · rintro (h | ⟨rfl, j, hj, hr⟩)
        · exact Or.inl (Or.inl h)
        · rcases List.mem_cons.mp hj with rfl | hj'
          · exact Or.inl (Or.inr ⟨rfl, hr⟩)
          · exact Or.inr ⟨rfl, j, hj', hr⟩

/-- Invariant maintained while the class body registers declarations in order:
`seen` is the set of already-bound names.  Registries contain only derived
already-seen declarations that transitively read the registry's source; the
seen set is closed under transitive reads; every seen derived declaration
reading a source is in its registry; and registries are topologically
ordered. -/
def RegInv (decls : List Decl) (seen : List Nat) (reg : Reg) : Prop :=
  (∀ s x, x ∈ reg s → x ∈ seen ∧ isDeriv decls x ∧ Reads decls x s)
  ∧ (∀ x ∈ seen, ∀ j, Reads decls x j → j ∈ seen)
  ∧ (∀ s x, x ∈ seen → isDeriv decls x → isSrc decls s → Reads decls x s →
      x ∈ reg s)
  ∧ (∀ s p q dp dq, (reg s).get? p = some dp → (reg s).get? q = some dq →
      Reads decls dp dq → q < p)

/-- Binding a name with no dependencies and no derived declaration extends the
seen set without touching registries. -/
theorem regInv_extend (decls : List Decl) (i : Nat) (seen : List Nat)
    (reg : Reg) (hdeps0 : depsOf decls i = []) (hnder : ¬ isDeriv decls i)
    (hInv : RegInv decls seen reg) : RegInv decls (i :: seen) reg := by
  obtain ⟨hS, hT, hC, hO⟩ := hInv
  refine ⟨?_, ?_, ?_, hO⟩
  · intro s x hx
    obtain ⟨h1, h2, h3⟩ := hS s x hx
    exact ⟨List.mem_cons_of_mem i h1, h2, h3⟩
  · intro x hx j hr
    rcases List.mem_cons.mp hx with rfl | hxs
    · obtain ⟨b, hb, _⟩ := Reads_inv decls x j hr
      rw [hdeps0] at hb
      exact absurd hb (List.not_mem_nil b)
    · exact List.mem_cons_of_mem i (hT x hxs j hr)
  · intro s x hx hder hsrc hr
    rcases List.mem_cons.mp hx with rfl | hxs
    · exact absurd hder hnder
    · exact hC s x hxs hder hsrc hr

/-- One `__set_name__` call preserves the registration invariant, provided the
bound declaration's dependencies were all bound earlier and the name is
fresh. -/
theorem registerStep (decls : List Decl) (hwf : CreationWF decls) (i : Nat)
    (seen : List Nat) (reg : Reg)
    (hdeps : ∀ j ∈ depsOf decls i, j ∈ seen) (hni : i ∉ seen)
    (hInv : RegInv decls seen reg) :
    RegInv decls (i :: seen) (Blackboards.registerDecl decls i reg) := by
  cases hd : decls.get? i with
  | none =>
      have hre : Blackboards.registerDecl decls i reg = reg := by
        unfold Blackboards.registerDecl
        rw [hd]
      rw [hre]
      refine regInv_extend decls i seen reg (depsOf_none decls i hd) ?_ hInv
      rintro ⟨fn, ds, hdd⟩
      rw [hd] at hdd
      exact Option.noConfusion hdd
  | some dc =>
      cases dc with
      | source v =>
          have hre : Blackboards.registerDecl decls i reg = reg := by
            unfold Blackboards.registerDecl
            rw [hd]
          rw [hre]
          refine regInv_extend decls i seen reg (depsOf_src decls i v hd) ?_ hInv
          rintro ⟨fn, ds, hdd⟩
          rw [hd] at hdd
          exact Decl.noConfusion (Option.some.inj hdd)
      | derived fn ds =>
          obtain ⟨hS, hT, hC, hO⟩ := hInv
          have hre : Blackboards.registerDecl decls i reg
              = ds.foldl
                  (fun r j => Blackboards.addDependent decls i decls.length j r)
                  reg := by
            unfold Blackboards.registerDecl
            rw [hd]
          have hin : i < decls.length := get?_some_lt hd
          have hmem : ∀ s x, x ∈ Blackboards.registerDecl decls i reg s
              ↔ x ∈ reg s
                ∨ (x = i ∧ ∃ j ∈ ds, reachesSrc decls decls.length j s = true) := by
            intro s x
            rw [hre]
            exact addDepFoldl_mem decls i decls.length ds reg s x
          have happ : ∀ s, ∃ k, Blackboards.registerDecl decls i reg s
              = reg s ++ List.replicate k i := by
            intro s
            rw [hre]
            exact addDepFoldl_append decls i decls.length ds reg s
          refine ⟨?_, ?_, ?_, ?_⟩
          · -- soundness
            intro s x hx
            rcases (hmem s x).mp hx with hold | ⟨he, j, hj, hr⟩
            · obtain ⟨h1, h2, h3⟩ := hS s x hold
              exact ⟨List.mem_cons_of_mem i h1, h2, h3⟩
            · obtain ⟨hsrc, hjs⟩ := reaches_sound decls decls.length j s hr
              have hjd : j ∈ depsOf decls i := by
                rw [depsOf_eq decls i fn ds hd]
                exact hj
              have hri : Reads decls i s := by
                cases hjs with
                | inl hejs =>
                    rw [hejs] at hjd
                    exact Reads.direct i s hjd
                | inr hrr => exact Reads.step i j s hjd hrr
              rw [he]
              exact ⟨List.mem_cons_self i seen, ⟨fn, ds, hd⟩, hri⟩
          · -- closure of seen under reads
            intro x hx j hr
            rcases List.mem_cons.mp hx with he | hxs
            · obtain ⟨b, hb, hbc⟩ := Reads_inv decls x j hr
              rw [he] at hb
              have hbs : b ∈ seen := hdeps b hb
              cases hbc with
              | inl hejs => rw [← hejs]; exact List.mem_cons_of_mem i hbs
              | inr hrr => exact List.mem_cons_of_mem i (hT b hbs j hrr)
            · exact List.mem_cons_of_mem i (hT x hxs j hr)
          · -- completeness
            intro s x hx hder hsrc hr
            rcases List.mem_cons.mp hx with he | hxs
            · apply (hmem s x).mpr
              refine Or.inr ⟨he, ?_⟩
              obtain ⟨b, hb, hbc⟩ := Reads_inv decls x s hr
              rw [he] at hb
              have hbds : b ∈ ds := by
                rw [← depsOf_eq decls i fn ds hd]
                exact hb
              have hblt : b < i := depsOf_mem_lt decls hwf i b hb
              exact ⟨b, hbds,
                reaches_complete decls hwf decls.length b s (by omega) hsrc hbc⟩
            · exact (hmem s x).mpr (Or.inl (hC s x hxs hder hsrc hr))
          · -- topological order
            intro s p q dp dq hp hq hr
            obtain ⟨k, hk⟩ := happ s
            rw [hk] at hp hq
            by_cases hpl : p < (reg s).length
            · have hp' : (reg s).get? p = some dp := by
                rw [← List.get?_append hpl]
                exact hp
              by_cases hql : q < (reg s).length
              · have hq' : (reg s).get? q = some dq := by
                  rw [← List.get?_append hql]
                  exact hq
                exact hO s p q dp dq hp' hq' hr
              · -- dq is the new element i, but dp (old) cannot read i
                have hq2 : (List.replicate k i).get? (q - (reg s).length)
                    = some dq := by
                  rw [← List.get?_append_right (by omega)]
                  exact hq
                have hdq : dq = i :=
                  List.eq_of_mem_replicate (List.get?_mem hq2)
                obtain ⟨hdpseen, _, _⟩ := hS s dp (List.get?_mem hp')
                rw [hdq] at hr
                exact absurd (hT dp hdpseen i hr) hni
            · by_cases hql : q < (reg s).length
              · omega
              · -- both are the new element i; i cannot read itself
                have hp2 : (List.replicate k i).get? (p - (reg s).length)
                    = some dp := by
                  rw [← List.get?_append_right (by omega)]
                  exact hp
                have hq2 : (List.replicate k i).get? (q - (reg s).length)
                    = some dq := by
                  rw [← List.get?_append_right (by omega)]
                  exact hq
                have hdp : dp = i :=
                  List.eq_of_mem_replicate (List.get?_mem hp2)
                have hdq : dq = i :=
                  List.eq_of_mem_replicate (List.get?_mem hq2)
                rw [hdp, hdq] at hr
                exact absurd (Reads_lt decls hwf i i hr) (by omega)

/-- Folding the class body over the registration step preserves the
invariant and accumulates the bound names. -/
theorem buildFold (decls : List Decl) (hwf : CreationWF decls) :
    ∀ (todo seen : List Nat) (reg : Reg),
      declOrderOK decls seen todo = true →
      todo.Nodup → (∀ x ∈ todo, x ∉ seen) →
      RegInv decls seen reg →
      RegInv decls (todo.reverse ++ seen)
        (todo.foldl (fun r i => Blackboards.registerDecl decls i r) reg) := by
  intro todo
  induction todo with
  | nil =>
      intro seen reg _ _ _ h
      simpa using h
  | cons a todo ih =>
      intro seen reg hok hnd hdisj hInv
      have hok' : ((depsOf decls a).all (fun j => decide (j ∈ seen))
          && declOrderOK decls (a :: seen) todo) = true := hok
      simp only [Bool.and_eq_true] at hok'
      obtain ⟨h1, h2⟩ := hok'
      have hdeps : ∀ j ∈ depsOf decls a, j ∈ seen := by
        intro j hj
        exact of_decide_eq_true (List.all_eq_true.mp h1 j hj)
      have hna : a ∉ seen := hdisj a (List.mem_cons_self a todo)
      have hstep := registerStep decls hwf a seen reg hdeps hna hInv
      have hnd' := List.nodup_cons.mp hnd
      have hrec := ih (a :: seen) (Blackboards.registerDecl decls a reg) h2
        hnd'.2
        (by
          intro x hx hmem
          rcases List.mem_cons.mp hmem with rfl | hxs
          · exact hnd'.1 hx
          · exact hdisj x (List.mem_cons_of_mem a hx) hxs)
        hstep
      have hl : (a :: todo).reverse ++ seen = todo.reverse ++ (a :: seen) := by
        simp
      rw [hl]
      simp only [List.foldl_cons]
      exact hrec

/-- C1: for a container type whose declarations are each bound strictly after
all declarations they depend on (and whose names cover the declaration list,
each bound once), the Dependent Registry of every source declaration `s`
contains every derived declaration that transitively reads `s`, contains only
such declarations, and lists them in topological order: a listed declaration
appears strictly after every other listed declaration it transitively
reads. -/
theorem registry_complete_topological (decls : List Decl) (order : List Nat)
    (s : Nat) (hwf : CreationWF decls) (hnd : order.Nodup)
    (hcov : ∀ i < decls.length, i ∈ order)
    (hord : declOrderOK decls [] order = true)
    (v0 : Int) (hs : decls.get? s = some (Decl.source v0)) :
    (∀ d fn ds, decls.get? d = some (Decl.derived fn ds) → Reads decls d s →
        d ∈ Blackboards.buildReg decls order s)
    ∧ (∀ d, d ∈ Blackboards.buildReg decls order s →
        isDeriv decls d ∧ Reads decls d s)
    ∧ (∀ p q dp dq,
        (Blackboards.buildReg decls order s).get? p = some dp →
        (Blackboards.buildReg decls order s).get? q = some dq →
        Reads decls dp dq → q < p) := by
  have hbase : RegInv decls [] emptyReg := by
    refine ⟨?_, ?_, ?_, ?_⟩
    · intro s x hx
      exact absurd hx (by simp [emptyReg])
    · intro x hx
      exact absurd hx (List.not_mem_nil x)
    · intro s x hx
      exact absurd hx (List.not_mem_nil x)
    · intro s p q dp dq hp
      exact absurd hp (by simp [emptyReg])
  obtain ⟨hS, hT, hC, hO⟩ :=
    buildFold decls hwf order [] emptyReg hord hnd (by simp) hbase
  refine ⟨?_, ?_, ?_⟩
  · intro d fn ds hd hreads
    apply hC s d
    · have hdn : d < decls.length := get?_some_lt hd
      simpa using hcov d hdn
    · exact ⟨fn, ds, hd⟩
    · exact ⟨v0, hs⟩
    · exact hreads
  · intro d hd
    obtain ⟨_, h2, h3⟩ := hS s d hd
    exact ⟨h2, h3⟩
  · intro p q dp dq h1 h2 hr
    exact hO s p q dp dq h1 h2 hr

/-- Witness for C1 on the scenario class: the registry of source `a` is
`[c, d]`, complete and topologically ordered. -/
theorem registry_complete_topological_witness :
    CreationWF exDecls
    ∧ exOrder.Nodup
    ∧ (∀ i < exDecls.length, i ∈ exOrder)
    ∧ declOrderOK exDecls [] exOrder = true
    ∧ exDecls.get? 0 = some (Decl.source 1)
    ∧ ((∀ d fn ds, exDecls.get? d = some (Decl.derived fn ds) →
          Reads exDecls d 0 → d ∈ Blackboards.buildReg exDecls exOrder 0)
      ∧ (∀ d, d ∈ Blackboards.buildReg exDecls exOrder 0 →
          isDeriv exDecls d ∧ Reads exDecls d 0)
      ∧ (∀ p q dp dq,
          (Blackboards.buildReg exDecls exOrder 0).get? p = some dp →
          (Blackboards.buildReg exDecls exOrder 0).get? q = some dq →
          Reads exDecls dp dq → q < p)) :=
  ⟨by unfold CreationWF; decide, by decide, by decide, by decide, rfl,
    registry_complete_topological exDecls exOrder 0
      (by unfold CreationWF; decide) (by decide) (by decide) (by decide) 1 rfl⟩
